import Mathlib

/-!
# Verification of the countries table (`src/Apollo Country/src/qraph.jsx`)

A shallow embedding of the client-side data pipeline of the countries page:
the country data model, the per-column text filters (`applyFilters`), the
index-stabilised sort (`stableSort` / `getComparator` / `descendingComparator`),
pagination (`slice`, `emptyRows`), the UI state handlers, and the worksheet
built by `exportToExcel`.

JavaScript semantics are modelled explicitly where they matter:

* `a[orderBy] < b[orderBy]` on two strings is code-unit lexicographic
  comparison (`charsLt`); when one side is `null` (a missing capital or
  currency) both `<` and `>` evaluate to `false`, because `null` is coerced
  to the number `0` while a non-numeric string is coerced to `NaN`, and every
  comparison with `NaN` is `false`.  All column values occurring here are
  non-numeric strings or `null`, captured by `JsVal`.
* `Array.prototype.sort(comparefn)` is modelled as a stable insertion sort
  driven by `comparefn a b <= 0`.  Whenever `comparefn` is consistent this is
  exactly the result required by the ECMAScript specification (sorted and
  stable); for an inconsistent `comparefn` — which happens below precisely
  when a `null` sort key meets string sort keys — ECMAScript leaves the order
  implementation-defined, and this model fixes one concrete conforming
  implementation.
* `String.prototype.toLowerCase` / `includes` / `join` are modelled
  character-wise (`jsToLower`, `jsIncludes`, `jsJoin`).
-/

namespace Qraph

/-- A language record as delivered by the GraphQL query: `{ code, name }`. -/
structure Language where
  code : String
  name : String
deriving DecidableEq

/-- A country record as delivered by the GraphQL query.  `capital` and
`currency` are nullable in the schema (e.g. Antarctica has `capital: null`),
which the component guards for in `applyFilters`. -/
structure Country where
  name : String
  native : String
  capital : Option String
  currency : Option String
  emoji : String
  languages : List Language
deriving DecidableEq

/-- The column identifiers of `headCells`: `name`, `native`, `capital`,
`languages`, `currency`.  These are also the filter keys. -/
inductive Column where
  | name
  | native
  | capital
  | languages
  | currency
deriving DecidableEq

/-- The `order` state: `'asc'` or `'desc'`. -/
inductive SortOrder where
  | asc
  | desc
deriving DecidableEq

/-- A JavaScript value as it occurs at a sort column: a string, or `null`
for a missing capital/currency. -/
inductive JsVal where
  | vnull
  | vstr (s : String)
deriving DecidableEq

/-- Code-unit lexicographic string comparison, the behaviour of `<` on two
JavaScript strings. -/
def charsLt : List Char → List Char → Bool
  | _, [] => false
  | [], _ :: _ => true
  | a :: as, b :: bs => if a < b then true else if b < a then false else charsLt as bs

/-- JavaScript `<` on the sort-column values occurring in this program.
Two strings compare lexicographically; a comparison involving `null` is
`false` (the `NaN` path of the abstract relational comparison, since the
strings at hand are non-numeric). -/
def jsLt : JsVal → JsVal → Bool
  | .vstr a, .vstr b => charsLt a.data b.data
  | _, _ => false

/-- Whether a sort-column value is a present string (not `null`). -/
def JsVal.isStr : JsVal → Bool
  | .vnull => false
  | .vstr _ => true

/-- `String.prototype.toLowerCase`, character-wise. -/
def jsToLower (s : String) : String :=
  ⟨s.data.map Char.toLower⟩

/-- Does the second character list start with the first? -/
def leadsWith : List Char → List Char → Bool
  | [], _ => true
  | _ :: _, [] => false
  | a :: as, b :: bs => a == b && leadsWith as bs

/-- Does `hay` contain `pat` as a contiguous run? -/
def hasSub (pat : List Char) : List Char → Bool
  | [] => leadsWith pat []
  | c :: t => leadsWith pat (c :: t) || hasSub pat t

/-- JavaScript `hay.includes(pat)`: substring containment. -/
def jsIncludes (hay pat : String) : Bool :=
  hasSub pat.data hay.data

/-- JavaScript `Array.prototype.join(sep)` applied to a list of strings. -/
def jsJoin (sep : String) (parts : List String) : String :=
  ⟨(List.intersperse sep.data (parts.map String.data)).flatten⟩

/-- The value `country[orderBy]` read by `descendingComparator`, coerced to
the form in which JavaScript's `<` sees it.  For the `languages` column the
value is an array of objects, which `<` coerces via `Array.prototype.toString`
to `"[object Object]"` entries joined by `","`. -/
def jsKey (orderBy : Column) (country : Country) : JsVal :=
  match orderBy with
  | .name => .vstr country.name
  | .native => .vstr country.native
  | .capital =>
    match country.capital with
    | none => .vnull
    | some s => .vstr s
  | .currency =>
    match country.currency with
    | none => .vnull
    | some s => .vstr s
  | .languages => .vstr (jsJoin "," (country.languages.map fun _ => "[object Object]"))

/-- `descendingComparator(a, b, orderBy)`: `-1` if `b[orderBy] < a[orderBy]`,
`1` if `b[orderBy] > a[orderBy]`, else `0`. -/
def descendingComparator (a b : Country) (orderBy : Column) : Int :=
  if jsLt (jsKey orderBy b) (jsKey orderBy a) then -1
  else if jsLt (jsKey orderBy a) (jsKey orderBy b) then 1
  else 0

/-- `getComparator(order, orderBy)`: the descending comparator for `'desc'`,
its negation for `'asc'`. -/
def getComparator (order : SortOrder) (orderBy : Column) : Country → Country → Int :=
  match order with
  | .desc => fun a b => descendingComparator a b orderBy
  | .asc => fun a b => -descendingComparator a b orderBy

/-- The compare function `stableSort` passes to `Array.prototype.sort`, as a
`≤`-style relation on (index, element) pairs: the element comparator when it
is nonzero, the original-index difference otherwise. -/
def stableRel (comparator : α → α → Int) : Nat × α → Nat × α → Prop :=
  fun a b =>
    (if comparator a.2 b.2 ≠ 0 then comparator a.2 b.2 else (a.1 : Int) - (b.1 : Int)) ≤ 0

instance (comparator : α → α → Int) : DecidableRel (stableRel comparator) :=
  fun a b =>
    inferInstanceAs
      (Decidable
        ((if comparator a.2 b.2 ≠ 0 then comparator a.2 b.2 else (a.1 : Int) - (b.1 : Int)) ≤ 0))

/-- `stableSort(array, comparator)`: pair each element with its index, sort
with the index-tie-breaking compare function, strip the indices.
`Array.prototype.sort` is modelled as stable insertion sort on the pairs
(see the file header). -/
def stableSort (array : List α) (comparator : α → α → Int) : List α :=
  (List.insertionSort (stableRel comparator) array.enum).map Prod.snd

/-- The element comparator as a `≤`-style relation; `stableSort` coincides
with a plain stable sort by this relation (`stableSort_eq_insertionSort`). -/
def cmpRel (comparator : α → α → Int) : α → α → Prop :=
  fun a b => comparator a b ≤ 0

instance (comparator : α → α → Int) : DecidableRel (cmpRel comparator) :=
  fun a b => inferInstanceAs (Decidable (comparator a b ≤ 0))

/-- The `filters` state: one text per column id.  The component starts with
the keys `name`, `capital`, `currency` set to `''`; `handleFilterChange` adds
`native`/`languages` keys on first use.  An absent key and the value `''`
behave identically in `applyFilters` (both mean "no constraint"), so the
state is modelled with all five keys always present. -/
structure Filters where
  name : String
  capital : String
  currency : String
  native : String
  languages : String
deriving DecidableEq

/-- `filters[filterKey]`. -/
def filtersGet (filters : Filters) : Column → String
  | .name => filters.name
  | .capital => filters.capital
  | .currency => filters.currency
  | .native => filters.native
  | .languages => filters.languages

/-- `{ ...filters, [filterKey]: value }`. -/
def filtersSet (filters : Filters) : Column → String → Filters
  | .name, v => { filters with name := v }
  | .capital, v => { filters with capital := v }
  | .currency, v => { filters with currency := v }
  | .native, v => { filters with native := v }
  | .languages, v => { filters with languages := v }

/-- The key set `Object.keys(filters)` ranges over: the three initial keys
plus the two that `handleFilterChange` can add.  `applyFilters` conjoins all
of them, so the iteration order is irrelevant to its value. -/
def filterKeys : List Column :=
  [.name, .capital, .currency, .native, .languages]

/-- `applyFilters(country)`: every key whose filter text is non-empty must
match.  `languages` matches if some language name contains the text
(lower-cased); `currency` and `capital` guard with `country.x && ...`, so a
`null` value yields a non-match (and a `''` value is falsy, which coincides
with the failure of substring containment of a non-empty text in `''`);
the remaining keys (`name`, `native`) test containment directly. -/
def applyFilters (filters : Filters) (country : Country) : Bool :=
  filterKeys.all fun filterKey =>
    if filtersGet filters filterKey == "" then true
    else
      match filterKey with
      | .languages =>
        (country.languages.map fun language => jsToLower language.name).any
          fun language => jsIncludes language (jsToLower (filtersGet filters filterKey))
      | .currency =>
        match country.currency with
        | none => false
        | some currency =>
          jsIncludes (jsToLower currency) (jsToLower (filtersGet filters filterKey))
      | .capital =>
        match country.capital with
        | none => false
        | some capital =>
          jsIncludes (jsToLower capital) (jsToLower (filtersGet filters filterKey))
      | .name => jsIncludes (jsToLower country.name) (jsToLower (filtersGet filters filterKey))
      | .native => jsIncludes (jsToLower country.native) (jsToLower (filtersGet filters filterKey))

/-- The interactive state owned by `Countries`: sort order and column, page
index, rows per page, and the filter texts. -/
structure UiState where
  order : SortOrder
  orderBy : Column
  page : Nat
  rowsPerPage : Nat
  filters : Filters
deriving DecidableEq

/-- `handleRequestSort`: toggle the direction when the active column is
requested again while ascending, otherwise sort the requested column
ascending. -/
def handleRequestSort (s : UiState) (property : Column) : UiState :=
  let isAsc := s.orderBy == property && s.order == SortOrder.asc
  { s with order := if isAsc then .desc else .asc, orderBy := property }

/-- `handleChangePage`: set the page index. -/
def handleChangePage (s : UiState) (newPage : Nat) : UiState :=
  { s with page := newPage }

/-- `handleChangeRowsPerPage`: set the page size and reset the page to 0. -/
def handleChangeRowsPerPage (s : UiState) (value : Nat) : UiState :=
  { s with rowsPerPage := value, page := 0 }

/-- `handleFilterChange`: update one filter text; no other state changes. -/
def handleFilterChange (s : UiState) (filterKey : Column) (value : String) : UiState :=
  { s with filters := filtersSet s.filters filterKey value }

/-- `sortedAndFilteredData`: sort the full fetched list, then filter. -/
def sortedAndFilteredData (countries : List Country) (order : SortOrder) (orderBy : Column)
    (filters : Filters) : List Country :=
  (stableSort countries (getComparator order orderBy)).filter (applyFilters filters)

/-- `Array.prototype.slice(start, stop)` for the in-range index arithmetic
used by the component. -/
def jsSlice (l : List α) (start stop : Nat) : List α :=
  (l.drop start).take (stop - start)

/-- The rows rendered in the table body:
`sortedAndFilteredData.slice(page * rowsPerPage, page * rowsPerPage + rowsPerPage)`. -/
def visibleRows (countries : List Country) (s : UiState) : List Country :=
  jsSlice (sortedAndFilteredData countries s.order s.orderBy s.filters)
    (s.page * s.rowsPerPage) (s.page * s.rowsPerPage + s.rowsPerPage)

/-- `emptyRows = rowsPerPage - Math.min(rowsPerPage, sortedAndFilteredData.length
- page * rowsPerPage)`, over JavaScript numbers, hence in `Int`: the
subtraction can be negative on a stale page. -/
def emptyRows (rowsPerPage length page : Nat) : Int :=
  (rowsPerPage : Int) - min (rowsPerPage : Int) ((length : Int) - (page : Int) * (rowsPerPage : Int))

/-- The `rowsPerPageOptions` of the pagination control. -/
def rowsPerPageOptions : List Nat :=
  [5, 10, 25, 50, 100, 251]

/-- `ceil(count / rowsPerPage)`: the number of pages covering `count` rows. -/
def pageCount (count rowsPerPage : Nat) : Nat :=
  (count + rowsPerPage - 1) / rowsPerPage

/-- The header row `['Name', 'Capital', 'Currency', 'Languages', 'Native']`
added first by `exportToExcel`. -/
def worksheetHeader : List (Option String) :=
  [some "Name", some "Capital", some "Currency", some "Languages", some "Native"]

/-- The worksheet built by `exportToExcel`: the header row, then for each
country of `sortedAndFilteredData` the row
`[country.name, country.capital, country.currency, languages.join(', ')]`
(a missing capital/currency passes `null` through as an empty cell). -/
def exportToExcel (countries : List Country) (s : UiState) : List (List (Option String)) :=
  worksheetHeader ::
    (sortedAndFilteredData countries s.order s.orderBy s.filters).map fun country =>
      [some country.name, country.capital, country.currency,
        some (jsJoin ", " (country.languages.map fun language => language.name))]

/-- Spec-worded data row for the export contract: Name, Capital, Currency and
the comma-joined Languages cell — and no cell for the declared Native
column. -/
def specDataRow (country : Country) : List (Option String) :=
  [some country.name, country.capital, country.currency,
    some (jsJoin ", " (country.languages.map fun language => language.name))]

/-- Spec-worded visible-row pipeline: filter the full list, then stably sort
the filtered rows, then slice out the current page. -/
def specVisibleRows (countries : List Country) (s : UiState) : List Country :=
  jsSlice (stableSort (countries.filter (applyFilters s.filters)) (getComparator s.order s.orderBy))
    (s.page * s.rowsPerPage) (s.page * s.rowsPerPage + s.rowsPerPage)

/-- Spec-worded per-column match: case-insensitive substring containment on
the column's value; for `languages`, some language name must contain the
text; a missing `capital`/`currency` never matches. -/
def specColumnMatches (country : Country) (filterKey : Column) (text : String) : Bool :=
  match filterKey with
  | .name => jsIncludes (jsToLower country.name) (jsToLower text)
  | .native => jsIncludes (jsToLower country.native) (jsToLower text)
  | .capital =>
    match country.capital with
    | none => false
    | some s => jsIncludes (jsToLower s) (jsToLower text)
  | .currency =>
    match country.currency with
    | none => false
    | some s => jsIncludes (jsToLower s) (jsToLower text)
  | .languages =>
    country.languages.any fun language => jsIncludes (jsToLower language.name) (jsToLower text)

/-- JavaScript truthiness of a nullable string: `null` and `''` are falsy. -/
def jsTruthy : Option String → Bool
  | none => false
  | some s => !(s == "")

/-- The unguarded read `x.toLowerCase()` on a nullable string: a `TypeError`
when the value is `null`, the lower-cased string otherwise. -/
def jsLowerRead : Option String → Except String String
  | none => .error "TypeError: cannot read toLowerCase of null"
  | some s => .ok (jsToLower s)

/-- The capital branch of `applyFilters` with its error behaviour made
explicit: `country.capital && country.capital.toLowerCase().includes(text)`.
The truthiness guard short-circuits before the read, so the `TypeError`
branch is reachable only if the guard passed. -/
def capitalFilterStep (country : Country) (text : String) : Except String Bool :=
  if jsTruthy country.capital then
    match jsLowerRead country.capital with
    | .error e => .error e
    | .ok low => .ok (jsIncludes low (jsToLower text))
  else .ok false

/-! ## Concrete records used as test inputs -/

/-- A country named `x` with capital `B`. -/
def exB : Country := ⟨"x", "", some "B", none, "", []⟩

/-- A country named `y` with no capital (`null`, like Antarctica). -/
def exNull : Country := ⟨"y", "", none, none, "", []⟩

/-- A country named `x` with capital `A`. -/
def exA : Country := ⟨"x", "", some "A", none, "", []⟩

/-- Two countries sharing their name, distinguishable by `native`. -/
def exDupA : Country := ⟨"same", "1", none, none, "", []⟩

/-- See `exDupA`. -/
def exDupB : Country := ⟨"same", "2", none, none, "", []⟩

/-- A filter state with the single active filter `name = "x"`. -/
def exFilterName : Filters := ⟨"x", "", "", "", ""⟩

/-- Ascending sort by `capital`, first page of five rows, `name = "x"`. -/
def exStateCap : UiState := ⟨.asc, .capital, 0, 5, exFilterName⟩

/-- Same sort and filters as `exStateCap`, but page 3 and ten rows per page. -/
def exStateDeep : UiState := ⟨.asc, .capital, 3, 10, exFilterName⟩

/-! ## Order-theoretic facts about the JavaScript comparison -/

theorem charsLt_irrefl : ∀ s : List Char, charsLt s s = false
  | [] => rfl
  | a :: as => by simp [charsLt, lt_irrefl, charsLt_irrefl as]

theorem charsLt_asymm : ∀ s t : List Char, charsLt s t = true → charsLt t s = false
  | _, [], h => by simp [charsLt] at h
  | [], _ :: _, _ => by simp [charsLt]
  | a :: as, b :: bs, h => by
    simp only [charsLt] at h ⊢
    by_cases h1 : a < b
    · have h2 : ¬ b < a := lt_asymm h1
      simp [h1, h2]
    · by_cases h2 : b < a
      · simp [h1, h2] at h
      · simp only [h1, h2, if_false] at h ⊢
        exact charsLt_asymm as bs h

theorem charsLt_trans : ∀ s t u : List Char,
    charsLt s t = true → charsLt t u = true → charsLt s u = true
  | _, _, [] => by intro _ h; simp [charsLt] at h
  | [], _, _ :: _ => by intro _ _; simp [charsLt]
  | _ :: _, [], _ :: _ => by intro h; simp [charsLt] at h
  | a :: as, b :: bs, c :: cs => by
    intro h1 h2
    simp only [charsLt] at h1 h2 ⊢
    by_cases hab : a < b <;> by_cases hbc : b < c
    · simp [lt_trans hab hbc]
    · by_cases hcb : c < b
      · simp [hbc, hcb] at h2
      · have e : b = c := le_antisymm (not_lt.mp hcb) (not_lt.mp hbc)
        subst e
        simp [hab]
    · by_cases hba : b < a
      · simp [hab, hba] at h1
      · have e : a = b := le_antisymm (not_lt.mp hba) (not_lt.mp hab)
        subst e
        simp [hbc]
    · by_cases hba : b < a
      · simp [hab, hba] at h1
      · by_cases hcb : c < b
        · simp [hbc, hcb] at h2
        · have e1 : a = b := le_antisymm (not_lt.mp hba) (not_lt.mp hab)
          have e2 : b = c := le_antisymm (not_lt.mp hcb) (not_lt.mp hbc)
          simp only [hab, hba, if_false] at h1
          simp only [hbc, hcb, if_false] at h2
          subst e1
          subst e2
          simp [lt_irrefl, charsLt_trans as bs cs h1 h2]

theorem charsLt_connex : ∀ s t : List Char,
    charsLt s t = false → charsLt t s = false → s = t
  | [], [], _, _ => rfl
  | [], _ :: _, h, _ => by simp [charsLt] at h
  | _ :: _, [], _, h => by simp [charsLt] at h
  | a :: as, b :: bs, h1, h2 => by
    simp only [charsLt] at h1 h2
    by_cases hab : a < b
    · simp [hab] at h1
    · by_cases hba : b < a
      · simp [hba] at h2
      · have e : a = b := le_antisymm (not_lt.mp hba) (not_lt.mp hab)
        simp only [hab, hba, if_false] at h1 h2
        rw [e, charsLt_connex as bs h1 h2]

theorem charsNotLt_trans {x y z : List Char}
    (h1 : charsLt y x = false) (h2 : charsLt z y = false) : charsLt z x = false := by
  by_contra hzx
  rw [Bool.not_eq_false] at hzx
  by_cases hxy : charsLt x y = true
  · have := charsLt_trans z x y hzx hxy
    simp [h2] at this
  · rw [Bool.not_eq_true] at hxy
    have e : x = y := charsLt_connex x y hxy h1
    subst e
    simp [h2] at hzx

theorem jsLt_irrefl (v : JsVal) : jsLt v v = false := by
  cases v <;> simp [jsLt, charsLt_irrefl]

theorem jsLt_asymm {v w : JsVal} (h : jsLt v w = true) : jsLt w v = false := by
  cases v <;> cases w <;> simp [jsLt] at h ⊢
  exact charsLt_asymm _ _ h

theorem isStr_iff {v : JsVal} : v.isStr = true ↔ ∃ s, v = .vstr s := by
  cases v <;> simp [JsVal.isStr]

theorem descendingComparator_neg (a b : Country) (orderBy : Column) :
    descendingComparator b a orderBy = -descendingComparator a b orderBy := by
  unfold descendingComparator
  by_cases h1 : jsLt (jsKey orderBy b) (jsKey orderBy a) = true
  · have h2 := jsLt_asymm h1
    simp [h1, h2]
  · by_cases h2 : jsLt (jsKey orderBy a) (jsKey orderBy b) = true
    · simp [h1, h2]
    · simp [h1, h2]

theorem getComparator_neg (order : SortOrder) (orderBy : Column) (a b : Country) :
    getComparator order orderBy b a = -getComparator order orderBy a b := by
  cases order with
  | asc =>
    show -descendingComparator b a orderBy = -(-descendingComparator a b orderBy)
    rw [descendingComparator_neg]
  | desc =>
    show descendingComparator b a orderBy = -descendingComparator a b orderBy
    rw [descendingComparator_neg]

theorem comparator_eq_zero_of_key_eq (order : SortOrder) (orderBy : Column) {a b : Country}
    (h : jsKey orderBy a = jsKey orderBy b) : getComparator order orderBy a b = 0 := by
  cases order <;> simp [getComparator, descendingComparator, h, jsLt_irrefl]

theorem cmpRel_total (order : SortOrder) (orderBy : Column) (a b : Country) :
    cmpRel (getComparator order orderBy) a b ∨ cmpRel (getComparator order orderBy) b a := by
  unfold cmpRel
  rw [getComparator_neg]
  omega

theorem cmpRel_refl (order : SortOrder) (orderBy : Column) (a : Country) :
    cmpRel (getComparator order orderBy) a a := by
  unfold cmpRel
  rw [comparator_eq_zero_of_key_eq order orderBy rfl]

theorem asc_le_iff {orderBy : Column} {a b : Country} {sa sb : String}
    (ha : jsKey orderBy a = .vstr sa) (hb : jsKey orderBy b = .vstr sb) :
    getComparator .asc orderBy a b ≤ 0 ↔ charsLt sb.data sa.data = false := by
  simp only [getComparator, descendingComparator, ha, hb, jsLt]
  by_cases h : charsLt sb.data sa.data = true
  · simp [h]
  · rw [Bool.not_eq_true] at h
    simp only [h, Bool.false_eq_true, if_false]
    split_ifs <;> simp

theorem desc_le_iff {orderBy : Column} {a b : Country} {sa sb : String}
    (ha : jsKey orderBy a = .vstr sa) (hb : jsKey orderBy b = .vstr sb) :
    getComparator .desc orderBy a b ≤ 0 ↔ charsLt sa.data sb.data = false := by
  simp only [getComparator, descendingComparator, ha, hb, jsLt]
  by_cases h : charsLt sa.data sb.data = true
  · have h2 : charsLt sb.data sa.data = false := charsLt_asymm _ _ h
    simp [h, h2]
  · rw [Bool.not_eq_true] at h
    simp only [h, Bool.false_eq_true, if_false]
    split_ifs <;> simp

theorem cmpRel_trans_of_isStr (order : SortOrder) (orderBy : Column) {a b c : Country}
    (ha : (jsKey orderBy a).isStr = true) (hb : (jsKey orderBy b).isStr = true)
    (hc : (jsKey orderBy c).isStr = true)
    (h1 : cmpRel (getComparator order orderBy) a b)
    (h2 : cmpRel (getComparator order orderBy) b c) :
    cmpRel (getComparator order orderBy) a c := by
  obtain ⟨sa, hsa⟩ := isStr_iff.mp ha
  obtain ⟨sb, hsb⟩ := isStr_iff.mp hb
  obtain ⟨sc, hsc⟩ := isStr_iff.mp hc
  unfold cmpRel at h1 h2 ⊢
  cases order with
  | asc =>
    rw [asc_le_iff hsa hsb] at h1
    rw [asc_le_iff hsb hsc] at h2
    rw [asc_le_iff hsa hsc]
    exact charsNotLt_trans h1 h2
  | desc =>
    rw [desc_le_iff hsa hsb] at h1
    rw [desc_le_iff hsb hsc] at h2
    rw [desc_le_iff hsa hsc]
    exact charsNotLt_trans h2 h1

/-! ## `stableSort` is insertion sort by the element comparator

The index tie-break only fires when the element comparator returns `0`, and
the indices attached by `enum` increase along the list, so along the whole
run of the insertion sort the pair-level decision `comparefn a b ≤ 0` agrees
with the element-level decision `comparator a b ≤ 0`. -/

theorem stableRel_iff_cmpRel (comparator : α → α → Int) {x y : Nat × α} (h : x.1 < y.1) :
    stableRel comparator x y ↔ cmpRel comparator x.2 y.2 := by
  unfold stableRel cmpRel
  split_ifs with hc
  · exact Iff.rfl
  · push_neg at hc
    rw [hc]
    omega

theorem mapsnd_orderedInsert (comparator : α → α → Int) (x : Nat × α) :
    ∀ M : List (Nat × α), (∀ y ∈ M, x.1 < y.1) →
      (List.orderedInsert (stableRel comparator) x M).map Prod.snd
        = List.orderedInsert (cmpRel comparator) x.2 (M.map Prod.snd)
  | [], _ => by simp [List.orderedInsert]
  | y :: M, h => by
    have hxy : x.1 < y.1 := h y (List.mem_cons_self y M)
    have hiff := stableRel_iff_cmpRel comparator hxy
    simp only [List.orderedInsert, List.map_cons]
    by_cases hd : cmpRel comparator x.2 y.2
    · rw [if_pos (hiff.mpr hd), if_pos hd]
      simp
    · rw [if_neg (fun hs => hd (hiff.mp hs)), if_neg hd]
      simp only [List.map_cons, List.cons.injEq, true_and]
      exact mapsnd_orderedInsert comparator x M (fun z hz => h z (List.mem_cons_of_mem y hz))

theorem mapsnd_insertionSort (comparator : α → α → Int) :
    ∀ pl : List (Nat × α), pl.Pairwise (fun u v => u.1 < v.1) →
      (List.insertionSort (stableRel comparator) pl).map Prod.snd
        = List.insertionSort (cmpRel comparator) (pl.map Prod.snd)
  | [], _ => rfl
  | x :: pl, h => by
    obtain ⟨hx, hp⟩ := List.pairwise_cons.mp h
    simp only [List.insertionSort, List.map_cons]
    rw [mapsnd_orderedInsert comparator x _
        (fun y hy => hx y ((List.mem_insertionSort _).mp hy)),
      mapsnd_insertionSort comparator pl hp]

theorem enum_pairwise (l : List α) : l.enum.Pairwise (fun u v => u.1 < v.1) := by
  have h : (l.enum.map Prod.fst).Pairwise (· < ·) := by
    rw [List.enum_map_fst]
    exact List.pairwise_lt_range l.length
  exact List.pairwise_map.mp h

/-- `stableSort array comparator` is exactly the stable insertion sort of
`array` by the relation `comparator a b ≤ 0`: the explicit index tie-break
realises stability but changes nothing else. -/
theorem stableSort_eq_insertionSort (array : List α) (comparator : α → α → Int) :
    stableSort array comparator = List.insertionSort (cmpRel comparator) array := by
  unfold stableSort
  rw [mapsnd_insertionSort comparator array.enum (enum_pairwise array), List.enum_map_snd]

/-! ## Sortedness and filtering for a relation that is total everywhere but
transitive only on a sub-population `P` (the rows whose sort key is a
present string) -/

theorem pairwise_orderedInsert_of (R : α → α → Prop) [DecidableRel R] (P : α → Prop)
    (htot : ∀ a b, R a b ∨ R b a)
    (htrans : ∀ a b c, P a → P b → P c → R a b → R b c → R a c)
    (x : α) (hx : P x) :
    ∀ L : List α, (∀ y ∈ L, P y) → L.Pairwise R → (List.orderedInsert R x L).Pairwise R
  | [], _, _ => by simp [List.orderedInsert]
  | y :: L, hP, hp => by
    obtain ⟨hy, hpL⟩ := List.pairwise_cons.mp hp
    simp only [List.orderedInsert]
    split_ifs with hxy
    · refine List.pairwise_cons.mpr ⟨?_, hp⟩
      intro z hz
      rcases List.mem_cons.mp hz with rfl | hz
      · exact hxy
      · exact htrans x y z hx (hP y (List.mem_cons_self y L)) (hP z (List.mem_cons_of_mem y hz))
          hxy (hy z hz)
    · refine List.pairwise_cons.mpr ⟨?_, ?_⟩
      · intro z hz
        rcases (List.mem_orderedInsert R).mp hz with rfl | hz
        · exact (htot z y).resolve_left hxy
        · exact hy z hz
      · exact pairwise_orderedInsert_of R P htot htrans x hx L
          (fun z hz => hP z (List.mem_cons_of_mem y hz)) hpL

theorem pairwise_insertionSort_of (R : α → α → Prop) [DecidableRel R] (P : α → Prop)
    (htot : ∀ a b, R a b ∨ R b a)
    (htrans : ∀ a b c, P a → P b → P c → R a b → R b c → R a c) :
    ∀ l : List α, (∀ y ∈ l, P y) → (List.insertionSort R l).Pairwise R
  | [], _ => List.Pairwise.nil
  | x :: l, hP => by
    simp only [List.insertionSort]
    exact pairwise_orderedInsert_of R P htot htrans x (hP x (List.mem_cons_self x l))
      (List.insertionSort R l)
      (fun z hz => hP z (List.mem_cons_of_mem x ((List.mem_insertionSort R).mp hz)))
      (pairwise_insertionSort_of R P htot htrans l
        (fun z hz => hP z (List.mem_cons_of_mem x hz)))

/-- In a pairwise-`R`-sorted list, an element `a` with `¬ R b a` (so `a`
strictly precedes `b` and in particular `a ≠ b`, since `R a a`) occurs before
every occurrence of `b`. -/
theorem pair_sublist_of_pairwise {R : α → α → Prop} :
    ∀ {L : List α}, L.Pairwise R → ∀ {a b : α}, a ∈ L → b ∈ L → ¬ R b a → R a a →
      [a, b].Sublist L
  | [], _, _, _, ha, _, _, _ => absurd ha (List.not_mem_nil _)
  | x :: L, hp, a, b, ha, hb, hra, hrefl => by
    obtain ⟨hx, hpL⟩ := List.pairwise_cons.mp hp
    rcases List.mem_cons.mp ha with ha1 | ha2
    · subst ha1
      rcases List.mem_cons.mp hb with hb1 | hb2
      · exact absurd (by rw [hb1]; exact hrefl) hra
      · exact (List.singleton_sublist.mpr hb2).cons₂ a
    · rcases List.mem_cons.mp hb with hb1 | hb2
      · subst hb1
        exact absurd (hx a ha2) hra
      · exact (pair_sublist_of_pairwise hpL ha2 hb2 hra hrefl).cons x

theorem filter_orderedInsert_neg (R : α → α → Prop) [DecidableRel R] (p : α → Bool)
    {x : α} (hx : p x = false) :
    ∀ L : List α, (List.orderedInsert R x L).filter p = L.filter p
  | [] => by simp [List.orderedInsert, hx]
  | y :: L => by
    simp only [List.orderedInsert]
    split_ifs with hxy
    · simp [List.filter, hx]
    · simp only [List.filter]
      rw [filter_orderedInsert_neg R p hx L]

theorem orderedInsert_of_forall_rel (R : α → α → Prop) [DecidableRel R] (x : α) :
    ∀ M : List α, (∀ z ∈ M, R x z) → List.orderedInsert R x M = x :: M
  | [], _ => rfl
  | z :: M, h => by
    simp only [List.orderedInsert]
    rw [if_pos (h z (List.mem_cons_self z M))]

theorem filter_orderedInsert_pos (R : α → α → Prop) [DecidableRel R] (P : α → Prop)
    (htrans : ∀ a b c, P a → P b → P c → R a b → R b c → R a c)
    (p : α → Bool) {x : α} (hpx : p x = true) (hx : P x) :
    ∀ L : List α, (∀ y ∈ L, P y) → L.Pairwise R →
      (List.orderedInsert R x L).filter p = List.orderedInsert R x (L.filter p)
  | [], _, _ => by simp [List.orderedInsert, hpx]
  | y :: L, hP, hp => by
    obtain ⟨hy, hpL⟩ := List.pairwise_cons.mp hp
    have ih := filter_orderedInsert_pos R P htrans p hpx hx L
      (fun z hz => hP z (List.mem_cons_of_mem y hz)) hpL
    simp only [List.orderedInsert]
    split_ifs with hxy
    · have hall : ∀ z ∈ (y :: L).filter p, R x z := by
        intro z hz
        have hzyL := List.mem_of_mem_filter hz
        rcases List.mem_cons.mp hzyL with rfl | hzL
        · exact hxy
        · exact htrans x y z hx (hP y (List.mem_cons_self y L))
            (hP z (List.mem_cons_of_mem y hzL)) hxy (hy z hzL)
      rw [orderedInsert_of_forall_rel R x ((y :: L).filter p) hall,
        List.filter_cons_of_pos hpx]
    · by_cases hpy : p y = true
      · rw [List.filter_cons_of_pos hpy, List.filter_cons_of_pos hpy]
        simp only [List.orderedInsert]
        rw [if_neg hxy, ih]
      · rw [List.filter_cons_of_neg (by simpa using hpy),
          List.filter_cons_of_neg (by simpa using hpy), ih]

theorem filter_insertionSort_of (R : α → α → Prop) [DecidableRel R] (P : α → Prop)
    (htot : ∀ a b, R a b ∨ R b a)
    (htrans : ∀ a b c, P a → P b → P c → R a b → R b c → R a c) (p : α → Bool) :
    ∀ l : List α, (∀ y ∈ l, P y) →
      (List.insertionSort R l).filter p = List.insertionSort R (l.filter p)
  | [], _ => rfl
  | x :: l, hP => by
    have hPl : ∀ y ∈ l, P y := fun z hz => hP z (List.mem_cons_of_mem x hz)
    have ih := filter_insertionSort_of R P htot htrans p l hPl
    simp only [List.insertionSort]
    by_cases hpx : p x = true
    · rw [List.filter_cons_of_pos hpx,
        filter_orderedInsert_pos R P htrans p hpx (hP x (List.mem_cons_self x l))
          (List.insertionSort R l)
          (fun z hz => hPl z ((List.mem_insertionSort R).mp hz))
          (pairwise_insertionSort_of R P htot htrans l hPl),
        ih, List.insertionSort]
    · rw [List.filter_cons_of_neg (by simpa using hpx),
        filter_orderedInsert_neg R p (by simpa using hpx) (List.insertionSort R l), ih]

/-! ## Filtering semantics -/

theorem mem_filterKeys (k : Column) : k ∈ filterKeys := by
  cases k <;> simp [filterKeys]

theorem anyMap {α β : Type} (f : α → β) (l : List α) (p : β → Bool) :
    (l.map f).any p = l.any fun x => p (f x) := by
  induction l with
  | nil => rfl
  | cons x l ih => simp [ih]

/-- Each arm of `applyFilters` computes exactly the spec-worded per-column
match (once the empty-text guard has been passed). -/
theorem applyFilters_eq (filters : Filters) (country : Country) :
    applyFilters filters country =
      filterKeys.all fun k =>
        filtersGet filters k == "" || specColumnMatches country k (filtersGet filters k) := by
  unfold applyFilters
  congr 1
  funext k
  by_cases he : (filtersGet filters k == "") = true
  · simp [he]
  · rw [Bool.not_eq_true] at he
    simp only [he, Bool.false_eq_true, if_false, Bool.false_or]
    cases k
    · rfl
    · rfl
    · rfl
    · simp [specColumnMatches, anyMap]
    · rfl

theorem applyFilters_iff (filters : Filters) (country : Country) :
    applyFilters filters country = true ↔
      ∀ k : Column, filtersGet filters k ≠ "" →
        specColumnMatches country k (filtersGet filters k) = true := by
  rw [applyFilters_eq, List.all_eq_true]
  constructor
  · intro h k hk
    have hx := h k (mem_filterKeys k)
    have hne : (filtersGet filters k == "") = false := by simpa using hk
    simpa [hne] using hx
  · intro h k _
    by_cases he : (filtersGet filters k == "") = true
    · simp [he]
    · rw [Bool.not_eq_true] at he
      simp only [he, Bool.false_or]
      exact h k (by simpa using he)

theorem jsToLower_data (s : String) : (jsToLower s).data = s.data.map Char.toLower :=
  rfl

theorem jsIncludes_empty_hay {t : String} (h : t ≠ "") : jsIncludes "" t = false := by
  unfold jsIncludes
  show hasSub t.data [] = false
  cases ht : t.data with
  | nil => exact absurd (String.ext_iff.mpr ht) h
  | cons c cs => simp [hasSub, leadsWith]

theorem jsToLower_ne_empty {t : String} (h : t ≠ "") : jsToLower t ≠ "" := by
  intro he
  apply h
  rw [String.ext_iff] at he ⊢
  rw [jsToLower_data] at he
  exact List.map_eq_nil_iff.mp he

/-! ## Pagination arithmetic -/

theorem jsSlice_add (l : List α) (start len : Nat) :
    jsSlice l start (start + len) = (l.drop start).take len := by
  unfold jsSlice
  congr 1
  omega

theorem pageCount_of_zero (ps : Nat) (hps : 0 < ps) : pageCount 0 ps = 0 := by
  unfold pageCount
  exact Nat.div_eq_of_lt (by omega)

theorem pageCount_succ {n : Nat} (ps : Nat) (hn : 0 < n) (hps : 0 < ps) :
    pageCount n ps = pageCount (n - ps) ps + 1 := by
  unfold pageCount
  rcases le_or_lt n ps with h | h
  · have h1 : n - ps = 0 := by omega
    rw [h1]
    have h2 : (0 + ps - 1) / ps = 0 := Nat.div_eq_of_lt (by omega)
    have h3 : (n + ps - 1) / ps = 1 :=
      Nat.div_eq_of_lt_le (by omega) (by omega)
    rw [h2, h3]
  · have e : n + ps - 1 = (n - ps + ps - 1) + ps := by omega
    rw [e, Nat.add_div_right _ hps]

theorem flatten_pages_aux (ps : Nat) (hps : 0 < ps) :
    ∀ (n : Nat) (l : List α), l.length ≤ n →
      ((List.range (pageCount l.length ps)).map
        fun page => jsSlice l (page * ps) (page * ps + ps)).flatten = l := by
  intro n
  induction n with
  | zero =>
    intro l hl
    have : l = [] := List.eq_nil_of_length_eq_zero (by omega)
    subst this
    simp [pageCount_of_zero ps hps]
  | succ n ih =>
    intro l hl
    by_cases h0 : l.length = 0
    · have : l = [] := List.eq_nil_of_length_eq_zero h0
      subst this
      simp [pageCount_of_zero ps hps]
    · have hlen : 0 < l.length := by omega
      rw [pageCount_succ ps hlen hps, List.range_succ_eq_map]
      simp only [List.map_cons, List.flatten_cons, List.map_map]
      have hhead : jsSlice l (0 * ps) (0 * ps + ps) = l.take ps := by
        rw [Nat.zero_mul, jsSlice_add, List.drop_zero]
      have htail : ∀ p : Nat,
          jsSlice l (Nat.succ p * ps) (Nat.succ p * ps + ps)
            = jsSlice (l.drop ps) (p * ps) (p * ps + ps) := by
        intro p
        rw [jsSlice_add, jsSlice_add, List.drop_drop]
        congr 2
        rw [Nat.succ_mul]
        ring
      have hmap : (List.range (pageCount (l.length - ps) ps)).map
            ((fun page => jsSlice l (page * ps) (page * ps + ps)) ∘ Nat.succ)
          = (List.range (pageCount (l.drop ps).length ps)).map
            fun page => jsSlice (l.drop ps) (page * ps) (page * ps + ps) := by
        rw [List.length_drop]
        exact List.map_congr_left fun p _ => htail p
      rw [hhead, hmap, ih (l.drop ps) (by rw [List.length_drop]; omega),
        List.take_append_drop]

theorem flatten_pages (ps : Nat) (hps : 0 < ps) (l : List α) :
    ((List.range (pageCount l.length ps)).map
      fun page => jsSlice l (page * ps) (page * ps + ps)).flatten = l :=
  flatten_pages_aux ps hps l.length l le_rfl

/-! ## Claims C3 – C10 -/

/-- C3: a country row is kept by `applyFilters` iff every non-empty filter
matches it, where matching is case-insensitive substring containment on the
column's value, the languages column matches iff some language name contains
the text, and a missing capital or currency makes any non-empty filter on
that column non-matching. -/
theorem c3_filter_semantics (filters : Filters) (country : Country) :
    applyFilters filters country = true ↔
      ∀ k : Column, filtersGet filters k ≠ "" →
        specColumnMatches country k (filtersGet filters k) = true :=
  applyFilters_iff filters country

/-- C3 witness at a concrete row and filter state. -/
theorem c3_filter_witness :
    applyFilters exFilterName exB = true ↔
      ∀ k : Column, filtersGet exFilterName k ≠ "" →
        specColumnMatches exB k (filtersGet exFilterName k) = true :=
  c3_filter_semantics exFilterName exB

/-- C4: the export worksheet is the header row
`[Name, Capital, Currency, Languages, Native]` followed by exactly one data
row per country of the filtered+sorted set, in that order, with the Languages
cell the comma-joined language names — and the data rows have only four
cells, omitting the Native value the five-cell header declares. -/
theorem c4_export_shape (countries : List Country) (s : UiState) :
    exportToExcel countries s =
      worksheetHeader ::
        (sortedAndFilteredData countries s.order s.orderBy s.filters).map specDataRow
    ∧ worksheetHeader.length = 5
    ∧ ∀ country : Country, (specDataRow country).length = 4 :=
  ⟨rfl, rfl, fun _ => rfl⟩

/-- C5: the export has as many data rows as the filtered+sorted set, and two
states agreeing on sort and filters — however much they differ in page or
rows-per-page — export identical worksheets. -/
theorem c5_export_frame (countries : List Country) (s s' : UiState)
    (horder : s.order = s'.order) (horderBy : s.orderBy = s'.orderBy)
    (hfilters : s.filters = s'.filters) :
    (exportToExcel countries s).tail.length
      = (sortedAndFilteredData countries s.order s.orderBy s.filters).length
    ∧ exportToExcel countries s = exportToExcel countries s' := by
  constructor
  · simp [exportToExcel]
  · simp [exportToExcel, horder, horderBy, hfilters]

/-- C5 witness: page 0 with five rows per page and page 3 with ten rows per
page export the same worksheet. -/
theorem c5_export_witness :
    (exportToExcel [exB, exNull, exA] exStateCap).tail.length
      = (sortedAndFilteredData [exB, exNull, exA] exStateCap.order exStateCap.orderBy
          exStateCap.filters).length
    ∧ exportToExcel [exB, exNull, exA] exStateCap
      = exportToExcel [exB, exNull, exA] exStateDeep :=
  c5_export_frame [exB, exNull, exA] exStateCap exStateDeep rfl rfl rfl

/-- C6: for a fixed filtered+sorted set and any allowed page size,
concatenating the page slices for pages `0 .. ceil(count / pageSize) - 1`
reproduces the whole set with no omission and no duplication. -/
theorem c6_pages_cover (countries : List Country) (order : SortOrder) (orderBy : Column)
    (filters : Filters) (rowsPerPage : Nat) (h : rowsPerPage ∈ rowsPerPageOptions) :
    ((List.range (pageCount
        (sortedAndFilteredData countries order orderBy filters).length rowsPerPage)).map
      fun page => jsSlice (sortedAndFilteredData countries order orderBy filters)
        (page * rowsPerPage) (page * rowsPerPage + rowsPerPage)).flatten
      = sortedAndFilteredData countries order orderBy filters := by
  have hps : 0 < rowsPerPage := by
    simp only [rowsPerPageOptions, List.mem_cons, List.not_mem_nil, or_false] at h
    rcases h with rfl | rfl | rfl | rfl | rfl | rfl <;> norm_num
  exact flatten_pages rowsPerPage hps _

/-- C6 witness at a concrete three-row set with page size five. -/
theorem c6_pages_witness :
    ((List.range (pageCount
        (sortedAndFilteredData [exB, exNull, exA] .asc .name exFilterName).length 5)).map
      fun page => jsSlice (sortedAndFilteredData [exB, exNull, exA] .asc .name exFilterName)
        (page * 5) (page * 5 + 5)).flatten
      = sortedAndFilteredData [exB, exNull, exA] .asc .name exFilterName :=
  c6_pages_cover [exB, exNull, exA] .asc .name exFilterName 5 (by decide)

/-- C7: a row whose capital is missing or empty never matches a non-empty
capital filter: the guarded capital branch evaluates to `ok false`, the
`TypeError` branch of the unguarded read is unreachable for every row, and
the whole filter rejects the row whenever the capital filter text is that
non-empty text. -/
theorem c7_missing_capital_safe (country : Country) (text : String)
    (hcap : country.capital = none ∨ country.capital = some "")
    (htext : text ≠ "") :
    capitalFilterStep country text = .ok false
    ∧ (∀ c : Country, ∃ b : Bool, capitalFilterStep c text = .ok b)
    ∧ ∀ filters : Filters, filtersGet filters .capital = text →
        applyFilters filters country = false := by
  refine ⟨?_, ?_, ?_⟩
  · rcases hcap with h | h <;> simp [capitalFilterStep, jsTruthy, h]
  · intro c
    cases hc : c.capital with
    | none => exact ⟨false, by simp [capitalFilterStep, jsTruthy, hc]⟩
    | some s =>
      by_cases hs : s = ""
      · exact ⟨false, by simp [capitalFilterStep, jsTruthy, hc, hs]⟩
      · exact ⟨jsIncludes (jsToLower s) (jsToLower text),
          by simp [capitalFilterStep, jsTruthy, jsLowerRead, hc, hs]⟩
  · intro filters hf
    cases hval : applyFilters filters country
    · rfl
    · exfalso
      have hmatch := (applyFilters_iff filters country).mp hval .capital
        (by rw [show filtersGet filters .capital = text from hf]; exact htext)
      rw [show filtersGet filters .capital = text from hf] at hmatch
      rcases hcap with h | h
      · simp [specColumnMatches, h] at hmatch
      · rw [show specColumnMatches country .capital text
            = jsIncludes (jsToLower "") (jsToLower text) by simp [specColumnMatches, h]] at hmatch
        rw [show jsToLower "" = "" from rfl,
          jsIncludes_empty_hay (jsToLower_ne_empty htext)] at hmatch
        exact Bool.false_ne_true hmatch

/-- C7 witness: the no-capital row against the filter text `x`. -/
theorem c7_capital_witness :
    capitalFilterStep exNull "x" = .ok false
    ∧ (∀ c : Country, ∃ b : Bool, capitalFilterStep c "x" = .ok b)
    ∧ ∀ filters : Filters, filtersGet filters .capital = "x" →
        applyFilters filters exNull = false :=
  c7_missing_capital_safe exNull "x" (Or.inl rfl) (by decide)

/-- C8: requesting a sort on a column other than the active one always sets
the direction to ascending and activates that column. -/
theorem c8_sort_direction_reset (s : UiState) (property : Column)
    (h : s.orderBy ≠ property) :
    (handleRequestSort s property).order = .asc
    ∧ (handleRequestSort s property).orderBy = property := by
  have hb : (s.orderBy == property) = false := by simpa using h
  unfold handleRequestSort
  simp [hb]

/-- C8 witness: requesting `name` while `capital` is the active column
yields ascending `name`. -/
theorem c8_sort_reset_witness :
    (handleRequestSort exStateCap .name).order = .asc
    ∧ (handleRequestSort exStateCap .name).orderBy = .name :=
  c8_sort_direction_reset exStateCap .name (by decide)

/-- C9: changing a filter value never touches the page index, and whenever
the filtered set has at most `page * rowsPerPage` rows the rendered page
slice is empty. -/
theorem c9_filter_page_frame (s : UiState) (filterKey : Column) (value : String)
    (countries : List Country) :
    (handleFilterChange s filterKey value).page = s.page
    ∧ ((sortedAndFilteredData countries s.order s.orderBy s.filters).length
        ≤ s.page * s.rowsPerPage → visibleRows countries s = []) := by
  refine ⟨rfl, fun hlen => ?_⟩
  unfold visibleRows jsSlice
  rw [List.drop_eq_nil_of_le hlen]
  exact List.take_nil

/-- C9 witness: one row, page 3 of ten — the slice is empty and the page
survives a filter edit. -/
theorem c9_filter_page_witness :
    (handleFilterChange exStateDeep .name "z").page = exStateDeep.page
    ∧ visibleRows [exB] exStateDeep = [] :=
  ⟨(c9_filter_page_frame exStateDeep .name "z" [exB]).1,
    (c9_filter_page_frame exStateDeep .name "z" [exB]).2 (by decide)⟩

/-- C10: `emptyRows = rowsPerPage - min(rowsPerPage, count - page*rowsPerPage)`
lies in `[0, rowsPerPage]` whenever the page start is within the filtered
count (page size 5 with 3 rows on page 0 gives 2), but exceeds `rowsPerPage`
on every stale page whose start offset lies beyond the filtered count. -/
theorem c10_empty_rows (rowsPerPage length page : Nat) :
    (page * rowsPerPage ≤ length →
      0 ≤ emptyRows rowsPerPage length page
      ∧ emptyRows rowsPerPage length page ≤ (rowsPerPage : Int))
    ∧ (length < page * rowsPerPage →
      (rowsPerPage : Int) < emptyRows rowsPerPage length page)
    ∧ emptyRows 5 3 0 = 2 := by
  refine ⟨fun h => ?_, fun h => ?_, by decide⟩
  · unfold emptyRows
    rw [min_def]
    split_ifs <;> constructor <;> omega
  · unfold emptyRows
    rw [min_def]
    split_ifs <;> omega

/-- C10 witness: 3 filtered rows give padding 2 on page 0 of five, and
padding 7 (exceeding the page size) on stale page 1. -/
theorem c10_empty_rows_witness :
    (0 ≤ emptyRows 5 3 0 ∧ emptyRows 5 3 0 ≤ (5 : Int))
    ∧ (5 : Int) < emptyRows 5 3 1
    ∧ emptyRows 5 3 0 = 2 :=
  ⟨(c10_empty_rows 5 3 0).1 (by decide),
    (c10_empty_rows 5 3 1).2.1 (by decide),
    (c10_empty_rows 5 3 0).2.2⟩

/-! ## Claims C1 and C2

Both claims hold on the rows whose value at the active sort column is a
present string, and fail when a `null` capital/currency meets string keys:
there the comparator deems `null` tied with every value, the index tie-break
freezes the input order in both directions, and sorting no longer commutes
with filtering. -/

/-- C1 (amended): provided every fetched row's value at the active sort
column is a present string — automatic for the `name`, `native` and
`languages` columns — the rows the component computes by sorting the full
list and filtering afterwards coincide with the spec's pipeline of filtering
first and stably sorting the filtered rows, and hence the visible page slice
is the spec's filter → stable sort → slice. -/
theorem c1_visible_rows_pipeline (countries : List Country) (s : UiState)
    (hpres : ∀ x ∈ countries, (jsKey s.orderBy x).isStr = true) :
    sortedAndFilteredData countries s.order s.orderBy s.filters
      = stableSort (countries.filter (applyFilters s.filters))
          (getComparator s.order s.orderBy)
    ∧ visibleRows countries s = specVisibleRows countries s := by
  have hmain : sortedAndFilteredData countries s.order s.orderBy s.filters
      = stableSort (countries.filter (applyFilters s.filters))
          (getComparator s.order s.orderBy) := by
    unfold sortedAndFilteredData
    rw [stableSort_eq_insertionSort, stableSort_eq_insertionSort]
    exact filter_insertionSort_of (cmpRel (getComparator s.order s.orderBy))
      (fun x => (jsKey s.orderBy x).isStr = true)
      (cmpRel_total s.order s.orderBy)
      (fun a b c ha hb hc => cmpRel_trans_of_isStr s.order s.orderBy ha hb hc)
      (applyFilters s.filters) countries hpres
  refine ⟨hmain, ?_⟩
  unfold visibleRows specVisibleRows
  rw [hmain]

/-- C1 counterexample: sorting ascending by capital over a row with a `null`
capital and then filtering by name differs from filtering first and sorting
the filtered rows, so the claimed equality fails as stated. -/
theorem c1_pipeline_counterexample :
    visibleRows [exB, exNull, exA] exStateCap
      ≠ specVisibleRows [exB, exNull, exA] exStateCap := by
  decide

/-- C1 witness: the amended equivalence at a concrete list whose capitals are
all present. -/
theorem c1_pipeline_witness :
    sortedAndFilteredData [exB, exA] exStateCap.order exStateCap.orderBy exStateCap.filters
      = stableSort ([exB, exA].filter (applyFilters exStateCap.filters))
          (getComparator exStateCap.order exStateCap.orderBy)
    ∧ visibleRows [exB, exA] exStateCap = specVisibleRows [exB, exA] exStateCap :=
  c1_visible_rows_pipeline [exB, exA] exStateCap (by decide)

/-- C2 (amended): the sort is stable — two rows whose sort-key values are
equal keep their input order for every direction, with no hypothesis on the
rest of the list; and toggling the direction exactly reverses the relative
order of two rows with distinct key values provided every row's value at the
sort column is a present string.  (With a `null` key in play the comparator
ties `null` against everything, and the reversal fails: see the
counterexample.) -/
theorem c2_stable_sort_laws :
    (∀ (l : List Country) (col : Column) (d : SortOrder) (a b : Country),
        [a, b].Sublist l → jsKey col a = jsKey col b →
        [a, b].Sublist (stableSort l (getComparator d col)))
    ∧ ∀ (l : List Country) (col : Column) (a b : Country),
        (∀ x ∈ l, (jsKey col x).isStr = true) → a ∈ l → b ∈ l →
        jsKey col a ≠ jsKey col b →
        ([a, b].Sublist (stableSort l (getComparator .asc col)) ↔
          [b, a].Sublist (stableSort l (getComparator .desc col))) := by
  constructor
  · intro l col d a b hsub hkey
    rw [stableSort_eq_insertionSort]
    refine List.pair_sublist_insertionSort ?_ hsub
    show getComparator d col a b ≤ 0
    rw [comparator_eq_zero_of_key_eq d col hkey]
  · intro l col a b hpres ha hb hne
    obtain ⟨sa, hsa⟩ := isStr_iff.mp (hpres a ha)
    obtain ⟨sb, hsb⟩ := isStr_iff.mp (hpres b hb)
    have hsne : sa ≠ sb := fun h => hne (by rw [hsa, hsb, h])
    rw [stableSort_eq_insertionSort, stableSort_eq_insertionSort]
    have hpA : (List.insertionSort (cmpRel (getComparator .asc col)) l).Pairwise
        (cmpRel (getComparator .asc col)) :=
      pairwise_insertionSort_of _ (fun x => (jsKey col x).isStr = true)
        (cmpRel_total .asc col)
        (fun a b c ha hb hc => cmpRel_trans_of_isStr .asc col ha hb hc) l hpres
    have hpD : (List.insertionSort (cmpRel (getComparator .desc col)) l).Pairwise
        (cmpRel (getComparator .desc col)) :=
      pairwise_insertionSort_of _ (fun x => (jsKey col x).isStr = true)
        (cmpRel_total .desc col)
        (fun a b c ha hb hc => cmpRel_trans_of_isStr .desc col ha hb hc) l hpres
    have haA := (List.mem_insertionSort (cmpRel (getComparator .asc col))).mpr ha
    have hbA := (List.mem_insertionSort (cmpRel (getComparator .asc col))).mpr hb
    have haD := (List.mem_insertionSort (cmpRel (getComparator .desc col))).mpr ha
    have hbD := (List.mem_insertionSort (cmpRel (getComparator .desc col))).mpr hb
    by_cases hlt : charsLt sa.data sb.data = true
    · have h1 : [a, b].Sublist (List.insertionSort (cmpRel (getComparator .asc col)) l) := by
        refine pair_sublist_of_pairwise hpA haA hbA ?_ (cmpRel_refl .asc col a)
        show ¬ getComparator .asc col b a ≤ 0
        rw [asc_le_iff hsb hsa]
        simp [hlt]
      have h2 : [b, a].Sublist (List.insertionSort (cmpRel (getComparator .desc col)) l) := by
        refine pair_sublist_of_pairwise hpD hbD haD ?_ (cmpRel_refl .desc col b)
        show ¬ getComparator .desc col a b ≤ 0
        rw [desc_le_iff hsa hsb]
        simp [hlt]
      exact iff_of_true h1 h2
    · rw [Bool.not_eq_true] at hlt
      have hlt' : charsLt sb.data sa.data = true := by
        by_contra hc
        rw [Bool.not_eq_true] at hc
        exact hsne (String.ext (charsLt_connex sa.data sb.data hlt hc))
      have h1 : ¬ [a, b].Sublist (List.insertionSort (cmpRel (getComparator .asc col)) l) := by
        intro hsub
        have hp2 : List.Pairwise (cmpRel (getComparator .asc col)) [a, b] :=
          List.Pairwise.sublist hsub hpA
        have hRab0 : cmpRel (getComparator .asc col) a b := List.pairwise_pair.mp hp2
        have hRab : getComparator .asc col a b ≤ 0 := hRab0
        rw [asc_le_iff hsa hsb, hlt'] at hRab
        simp at hRab
      have h2 : ¬ [b, a].Sublist (List.insertionSort (cmpRel (getComparator .desc col)) l) := by
        intro hsub
        have hp2 : List.Pairwise (cmpRel (getComparator .desc col)) [b, a] :=
          List.Pairwise.sublist hsub hpD
        have hRba0 : cmpRel (getComparator .desc col) b a := List.pairwise_pair.mp hp2
        have hRba : getComparator .desc col b a ≤ 0 := hRba0
        rw [desc_le_iff hsb hsa, hlt'] at hRba
        simp at hRba
      exact iff_of_false h1 h2

/-- C2 counterexample: a `null`-capital row against a `"B"`-capital row has
distinct sort-key values, yet ascending and descending capital sorts both
keep the input order — descending fails to reverse it. -/
theorem c2_sort_laws_counterexample :
    jsKey .capital exNull ≠ jsKey .capital exB
    ∧ stableSort [exNull, exB] (getComparator .asc .capital) = [exNull, exB]
    ∧ stableSort [exNull, exB] (getComparator .desc .capital) ≠ [exB, exNull] := by
  decide

/-- C2 witness: stability at two rows sharing their name key, and the
reversal law at two rows with distinct present capitals. -/
theorem c2_sort_laws_witness :
    [exDupA, exDupB].Sublist (stableSort [exDupA, exDupB] (getComparator .desc .name))
    ∧ ([exB, exA].Sublist (stableSort [exB, exA] (getComparator .asc .capital)) ↔
        [exA, exB].Sublist (stableSort [exB, exA] (getComparator .desc .capital))) :=
  ⟨c2_stable_sort_laws.1 [exDupA, exDupB] .name .desc exDupA exDupB (by decide) (by decide),
    c2_stable_sort_laws.2 [exB, exA] .capital exB exA (by decide) (by decide) (by decide)
      (by decide)⟩

end Qraph
